import Mathlib

/-!
Verification of the transaction-block extraction and parsing engine of
`src/logsProcessor.py`.  Texts are modelled as `List Char` (the ASCII
fragment of Python `str`), offsets as `Nat`, and Python's fallible
operations as `Option`/`Except`.  Each definition carries a doc comment
naming the Python symbol it embeds.
-/

namespace Calo

/-! ## Definitions embedded from `src/logsProcessor.py` -/

/-- Scanner state of the loop body of `_extract_transaction_blocks`
(src/logsProcessor.py lines 82–85): nesting `depth`, the two quote flags
`in_sq`/`in_dq`, and the escape flag `esc`. -/
structure ScanState where
  depth : Int
  in_sq : Bool
  in_dq : Bool
  esc : Bool
deriving DecidableEq, Repr

/-- The scanner's start state (`depth = 0`, all flags clear),
lines 82–85 of `_extract_transaction_blocks`. -/
def initState : ScanState := ⟨0, false, false, false⟩

/-- One step of the character loop of `_extract_transaction_blocks`
(lines 88–103), for the case where the loop does not break: the `if`/`elif`
chain updating `esc`, `in_sq`, `in_dq` and `depth`. -/
def scanStep (st : ScanState) (ch : Char) : ScanState :=
  if st.esc then { st with esc := false }
  else if ch = '\\' then { st with esc := true }
  else if !st.in_dq && ch = '\'' then { st with in_sq := !st.in_sq }
  else if !st.in_sq && ch = '"' then { st with in_dq := !st.in_dq }
  else if !st.in_sq && !st.in_dq then
    if ch = '{' then { st with depth := st.depth + 1 }
    else if ch = '}' then { st with depth := st.depth - 1 }
    else st
  else st

/-- The break condition of the loop (lines 102–107): an unescaped, unquoted
`}` that brings the depth from 1 down to 0 terminates the scan. -/
def closesBlock (st : ScanState) (ch : Char) : Bool :=
  !st.esc && !st.in_sq && !st.in_dq && ch == '}' && st.depth == 1

/-- The character loop of `_extract_transaction_blocks` (lines 87–107),
scanning `cs` whose head sits at absolute offset `j` in the full text:
returns the absolute offset of the closing brace, or `none` when the text
ends first (the `for`'s `else` branch). -/
def scanClose : List Char → Nat → ScanState → Option Nat
  | [], _, _ => none
  | ch :: rest, j, st =>
    if closesBlock st ch then some j
    else scanClose rest (j + 1) (scanStep st ch)

/-- Folding `scanStep` over a list of characters. -/
def stateAfter (cs : List Char) (st : ScanState) : ScanState :=
  cs.foldl scanStep st

/-- Python slice `t[a:b]`. -/
def listSlice (t : List Char) (a b : Nat) : List Char := (t.take b).drop a

/-- Python `text.find(pat, start)` (lines 75 and 78), returned as
`Option Nat`: the least offset `k ≥ start` where `pat` occurs, else
`none` in place of `-1`. -/
def pyFind (text pat : List Char) (start : Nat) : Option Nat :=
  (List.range (text.length + 1)).find?
    (fun k => decide (start ≤ k) && pat.isPrefixOf (text.drop k))

/-- The literal block marker `"transaction:"` of line 75. -/
def markerChars : List Char := "transaction:".toList

/-- The delimiter matcher: lines 82–107 of `_extract_transaction_blocks`,
run from the offset `braceStart` of an opening `{`.  On success returns the
inner substring `text[braceStart+1 : j]` and the resume offset `j + 1`
(the assignments of lines 105–106); `none` when the block is unterminated. -/
def matchBlock (text : List Char) (braceStart : Nat) :
    Option (List Char × Nat) :=
  match scanClose (text.drop braceStart) braceStart initState with
  | some j => some (listSlice text (braceStart + 1) j, j + 1)
  | none => none

/-- The `while` loop of `_extract_transaction_blocks` (lines 74–109),
with an explicit fuel parameter; each iteration strictly advances the
search offset `i`, so fuel `text.length + 1` is enough (see
`extractAux_fuel_adequate`). -/
def extractAux (text : List Char) : Nat → Nat → List (List Char)
  | 0, _ => []
  | fuel + 1, i =>
    match pyFind text markerChars i with
    | none => []
    | some start =>
      match pyFind text ['{'] start with
      | none => []
      | some braceStart =>
        match matchBlock text braceStart with
        | none => []
        | some (inner, resume) => inner :: extractAux text fuel resume

/-- `_extract_transaction_blocks(text)` (lines 71–110). -/
def extractTransactionBlocks (text : List Char) : List (List Char) :=
  extractAux text (text.length + 1) 0

/-- Instrumented variant of `extractAux` that also records the offset of
each block's opening brace, used to state the ordering claims. -/
def extractIdxAux (text : List Char) : Nat → Nat → List (Nat × List Char)
  | 0, _ => []
  | fuel + 1, i =>
    match pyFind text markerChars i with
    | none => []
    | some start =>
      match pyFind text ['{'] start with
      | none => []
      | some braceStart =>
        match matchBlock text braceStart with
        | none => []
        | some (inner, resume) =>
          (braceStart, inner) :: extractIdxAux text fuel resume

/-- Instrumented block extraction with brace offsets. -/
def extractIdx (text : List Char) : List (Nat × List Char) :=
  extractIdxAux text (text.length + 1) 0

/-- The ASCII whitespace characters stripped by Python `str.strip()`. -/
def isPySpace (c : Char) : Bool :=
  c == ' ' || c == '\t' || c == '\n' || c == '\x0b' || c == '\x0c' || c == '\r'

/-- Python `s.rstrip()` (ASCII whitespace). -/
def rstripPy (cs : List Char) : List Char :=
  (cs.reverse.dropWhile isPySpace).reverse

/-- Python `s.strip()` (ASCII whitespace). -/
def stripPy (cs : List Char) : List Char :=
  rstripPy (cs.dropWhile isPySpace)

/-- Lines 113–117 of `_coerce_value`: strip surrounding whitespace, drop
one trailing comma (and whitespace before it), and strip a surrounding
pair of identical quote characters when the value has length ≥ 2 and its
first and last characters are that quote. -/
def normalizeValue (s : List Char) : List Char :=
  let v1 := stripPy s
  let v2 := if v1.getLast? = some ',' then rstripPy v1.dropLast else v1
  if 2 ≤ v2.length ∧ v2.head? = v2.getLast?
      ∧ (v2.head? = some '\'' ∨ v2.head? = some '"') then
    v2.tail.dropLast
  else v2

/-- Continuation of a digit group with single underscores between digits,
as accepted by Python's `int`/`float` literals: consumes `(digit | '_'
digit)*` greedily and returns the unconsumed suffix. -/
def chompCont : List Char → List Char
  | [] => []
  | [c] => if c.isDigit then [] else [c]
  | c :: d :: r =>
    if c.isDigit then chompCont (d :: r)
    else if c == '_' && d.isDigit then chompCont r
    else c :: d :: r

/-- A digit group of Python's numeric grammar: at least one digit, then
`chompCont`; `none` when the input does not start with a digit. -/
def chompDigitsUS : List Char → Option (List Char)
  | [] => none
  | c :: r => if c.isDigit then some (chompCont r) else none

/-- Value of a digit group already begun with accumulator `acc`,
rejecting misplaced underscores; `none` on any other character. -/
def digitsVal (acc : Nat) : List Char → Option Nat
  | [] => some acc
  | [c] => if c.isDigit then some (10 * acc + (c.toNat - 48)) else none
  | c :: d :: r =>
    if c.isDigit then digitsVal (10 * acc + (c.toNat - 48)) (d :: r)
    else if c == '_' && d.isDigit then
      digitsVal (10 * acc + (d.toNat - 48)) r
    else none

/-- Value of a complete digit group: a digit, then digits with single
interior underscores. -/
def parseDigitsUS : List Char → Option Nat
  | [] => none
  | c :: r => if c.isDigit then digitsVal (c.toNat - 48) r else none

/-- Python `int(s)` on ASCII text: optional surrounding whitespace, an
optional `+`/`-` sign, then a digit group with single interior
underscores; `none` exactly when Python raises `ValueError`. -/
def pyInt (cs : List Char) : Option Int :=
  match stripPy cs with
  | [] => none
  | c :: rest =>
    if c = '-' then (parseDigitsUS rest).map (fun n => -(Int.ofNat n))
    else if c = '+' then (parseDigitsUS rest).map Int.ofNat
    else (parseDigitsUS (c :: rest)).map Int.ofNat

/-- Drop one optional `+`/`-` sign. -/
def chompSign : List Char → List Char
  | '+' :: r => r
  | '-' :: r => r
  | cs => cs

/-- The mantissa of Python's `float` grammar:
`digits ['.' [digits]] | '.' digits`, digit groups with single interior
underscores; returns the unconsumed suffix. -/
def chompMantissa (cs : List Char) : Option (List Char) :=
  match cs with
  | '.' :: r => chompDigitsUS r
  | _ =>
    match chompDigitsUS cs with
    | none => none
    | some rest =>
      match rest with
      | '.' :: r2 =>
        match chompDigitsUS r2 with
        | some rest2 => some rest2
        | none => some r2
      | _ => some rest

/-- The case-insensitive special float literals `inf`, `infinity`, `nan`. -/
def isInfNan (cs : List Char) : Bool :=
  let low := cs.map Char.toLower
  low == "inf".toList || low == "infinity".toList || low == "nan".toList

/-- Python `float(s)` acceptance on ASCII text: optional surrounding
whitespace, optional sign, then `inf`/`infinity`/`nan` (any case) or a
mantissa with an optional `e`/`E` exponent; `false` exactly when Python
raises `ValueError`. -/
def pyFloatAccepts (cs : List Char) : Bool :=
  let t := chompSign (stripPy cs)
  if isInfNan t then true
  else
    match chompMantissa t with
    | none => false
    | some rest =>
      match rest with
      | [] => true
      | e :: r =>
        if e == 'e' || e == 'E' then
          match chompDigitsUS (chompSign r) with
          | some [] => true
          | _ => false
        else false

/-- The tagged value union produced by `_coerce_value`: Python `str`,
`int`, `float` and `bool`.  A `float` is represented by the exact text it
was parsed from (its numeric value is never inspected downstream). -/
inductive FieldValue where
  | str (s : List Char)
  | int (n : Int)
  | float (tx : List Char)
  | bool (b : Bool)
deriving DecidableEq, Repr

instance : Inhabited FieldValue := ⟨.str []⟩

/-- Lines 118–128 of `_coerce_value`, applied to the already-normalized
value: the case-insensitive boolean literals, then `float(val)` when the
value contains a `.`, else `int(val)`, falling back to the string itself
on `ValueError`. -/
def coerceCore (val : List Char) : FieldValue :=
  let low := val.map Char.toLower
  if low = "true".toList then .bool true
  else if low = "false".toList then .bool false
  else if val.contains '.' then
    if pyFloatAccepts val then .float val else .str val
  else
    match pyInt val with
    | some n => .int n
    | none => .str val

/-- `_coerce_value(s)` (lines 112–128). -/
def coerceValue (s : List Char) : FieldValue :=
  coerceCore (normalizeValue s)

/-- The ASCII line boundaries of Python `str.splitlines()`. -/
def isLineBreak (c : Char) : Bool :=
  c == '\n' || c == '\r' || c == '\x0b' || c == '\x0c'
    || c == '\x1c' || c == '\x1d' || c == '\x1e'

/-- Worker for `splitlines`: `cur` holds the current line reversed. -/
def splitlinesAux : List Char → List Char → List (List Char)
  | [], cur => if cur.isEmpty then [] else [cur.reverse]
  | [c], cur =>
    if isLineBreak c then [cur.reverse] else [(c :: cur).reverse]
  | c :: d :: rest, cur =>
    if c == '\r' && d == '\n' then cur.reverse :: splitlinesAux rest []
    else if isLineBreak c then cur.reverse :: splitlinesAux (d :: rest) []
    else splitlinesAux (d :: rest) (c :: cur)

/-- Python `s.splitlines()` on ASCII text: split at line boundaries,
`\r\n` counting as one boundary, with no trailing empty line. -/
def splitlinesPy (cs : List Char) : List (List Char) :=
  splitlinesAux cs []

/-- Python-dict assignment `out[key] = val` (line 141): update the value
in place when the key is present, else append the binding. -/
def dictInsert (d : List (List Char × FieldValue)) (k : List Char)
    (v : FieldValue) : List (List Char × FieldValue) :=
  if d.any (fun p => p.1 = k) then
    d.map (fun p => if p.1 = k then (k, v) else p)
  else d ++ [(k, v)]

/-- Lookup in the association-list model of a Python dict. -/
def lookupD : List (List Char × FieldValue) → List Char → Option FieldValue
  | [], _ => none
  | p :: rest, k => if p.1 = k then some p.2 else lookupD rest k

/-- The per-line decoding of `_parse_block_to_dict` (lines 133–141),
returning `none` for the skipped lines: empty after trimming, a bare
structural brace token, or no `:` separator. -/
def lineKV (raw : List Char) : Option (List Char × FieldValue) :=
  let line := stripPy raw
  if line = [] ∨ line = "\x7b".toList ∨ line = "\x7d".toList
      ∨ line = "\x7d,".toList then none
  else if ¬ line.contains ':' then none
  else
    some (stripPy (line.takeWhile (fun c => c ≠ ':')),
      coerceValue (line.dropWhile (fun c => c ≠ ':')).tail)

/-- `_parse_block_to_dict(block_text)` (lines 130–142): fold the decoded
lines into a dict with Python assignment semantics. -/
def parseBlockToDict (blockText : List Char) :
    List (List Char × FieldValue) :=
  (splitlinesPy blockText).foldl
    (fun d raw =>
      match lineKV raw with
      | none => d
      | some (k, v) => dictInsert d k v) []

/-- The anchored regex `(\d{4}-\d{2}-\d{2})` of line 149, matched at the
start of the name (`re.match`), for ASCII digits. -/
def dateRegexAccepts : List Char → Bool
  | y1 :: y2 :: y3 :: y4 :: h1 :: m1 :: m2 :: h2 :: d1 :: d2 :: _ =>
    y1.isDigit && y2.isDigit && y3.isDigit && y4.isDigit && h1 == '-'
      && m1.isDigit && m2.isDigit && h2 == '-' && d1.isDigit && d2.isDigit
  | _ => false

/-- `_extract_date_from_sourcefile(sourcefile)` (lines 144–150): the
matched 10-character group, or the empty string. -/
def extractDateFromSourcefile (name : List Char) : List Char :=
  if dateRegexAccepts name then name.take 10 else []

/-- The provenance assignments of lines 163–164:
`d["sourcefile"] = file_path.name` then
`d["date"] = _extract_date_from_sourcefile(file_path.name)`. -/
def assembleRecord (d : List (List Char × FieldValue)) (name : List Char) :
    List (List Char × FieldValue) :=
  dictInsert (dictInsert d "sourcefile".toList (.str name))
    "date".toList (.str (extractDateFromSourcefile name))

/-- Lines 158–166 of `parse_transactions_from_file`, after the file text
has been read: decode every block, suppress blocks with an empty dict,
attach provenance, and accumulate in block order. -/
def txnsFromText (name text : List Char) :
    List (List (List Char × FieldValue)) :=
  (extractTransactionBlocks text).foldl
    (fun acc b =>
      let d := parseBlockToDict b
      if d = [] then acc else acc ++ [assembleRecord d name]) []

/-- The accumulation loop of `write_transactions_to_csv` (lines 172–174)
over already-read file texts, in processing order:
`all_transactions.extend(parse_transactions_from_file(log_file))`. -/
def allTxnsPure (files : List (List Char × List Char)) :
    List (List (List Char × FieldValue)) :=
  files.foldl (fun acc f => acc ++ txnsFromText f.1 f.2) []

/-- A source file as seen by `parse_transactions_from_file` (lines
152–157): its name and the outcomes of the two read attempts — first
`read_text(encoding="utf-8", errors="ignore")`, then, on any exception,
`read_text(errors="ignore")`.  `Except.error` models a raised exception. -/
structure ModelFile where
  name : List Char
  read1 : Except Unit (List Char)
  read2 : Except Unit (List Char)

/-- `parse_transactions_from_file(file_path)` (lines 152–166) with its
read effects: the `try`/`except` catches a failure of the first read and
retries with the platform default encoding; an exception raised by the
second read is not caught and propagates to the caller. -/
def parseTransactionsFromFile (f : ModelFile) :
    Except Unit (List (List (List Char × FieldValue))) :=
  match f.read1 with
  | .ok text => .ok (txnsFromText f.name text)
  | .error _ =>
    match f.read2 with
    | .ok text => .ok (txnsFromText f.name text)
    | .error e => .error e

/-- One iteration of the file loop of `write_transactions_to_csv`
(lines 173–174): `all_transactions.extend(...)` on the accumulated list,
with an already-raised exception propagating past the remaining files. -/
def collectStep (acc : Except Unit (List (List (List Char × FieldValue))))
    (f : ModelFile) : Except Unit (List (List (List Char × FieldValue))) :=
  match acc with
  | .error e => .error e
  | .ok ts =>
    match parseTransactionsFromFile f with
    | .ok more => .ok (ts ++ more)
    | .error e => .error e

/-- The file loop of `write_transactions_to_csv` (lines 172–174): the
files are visited in order with no per-file exception handler, so an
exception raised while parsing one file aborts the whole loop. -/
def collectAllTransactions (files : List ModelFile) :
    Except Unit (List (List (List Char × FieldValue))) :=
  files.foldl collectStep (.ok [])

/-- The character at offset `j` closes the block opened at offset `b`:
in the state reached by scanning `text[b:j]` from the fresh start state,
the character at `j` is an unescaped, unquoted `}` at depth 1. -/
def closesAt (text : List Char) (b j : Nat) : Prop :=
  ∃ c post, text.drop j = c :: post ∧
    closesBlock (stateAfter (listSlice text b j) initState) c = true

/-- The amended normalization contract, stated structurally: trim
surrounding whitespace; strip one trailing comma and the whitespace
before it; then strip the first and last characters exactly when the
value starts with a quote character and ends with that same character
(length ≥ 2), regardless of the interior. -/
def specNormalizeC5 (s : List Char) : List Char :=
  let v1 := stripPy s
  let v2 := if v1.getLast? = some ',' then rstripPy v1.dropLast else v1
  match v2 with
  | [] => []
  | q :: rest =>
    if (q = '\'' ∨ q = '"') ∧ rest ≠ [] ∧ rest.getLast? = some q then
      rest.dropLast
    else q :: rest

/-- The spec-side reading of "the name starts with the exact
`YYYY-MM-DD` pattern": an explicit decomposition into four digits, a
hyphen, two digits, a hyphen and two digits. -/
def StartsWithDate (name : List Char) : Prop :=
  ∃ y1 y2 y3 y4 m1 m2 d1 d2 rest,
    name = y1 :: y2 :: y3 :: y4 :: '-' :: m1 :: m2 :: '-' :: d1 :: d2 :: rest
    ∧ y1.isDigit = true ∧ y2.isDigit = true ∧ y3.isDigit = true
    ∧ y4.isDigit = true ∧ m1.isDigit = true ∧ m2.isDigit = true
    ∧ d1.isDigit = true ∧ d2.isDigit = true

/-- The numeric grammar of claim C4, read directly from its words: an
optional leading `-`, then a nonempty body of digits with at most one
`.`. -/
def specNumericC4 (cs : List Char) : Bool :=
  let body := match cs with
    | '-' :: r => r
    | _ => cs
  !body.isEmpty && body.all (fun c => c.isDigit || c == '.')
    && decide (body.count '.' ≤ 1)

/-- Declarative description of the digit-group tails consumed by
`digitsVal`: digits and underscores only, no two adjacent underscores,
ending in a digit when nonempty. -/
def TailOK (r : List Char) : Prop :=
  (∀ c ∈ r, c.isDigit = true ∨ c = '_')
  ∧ r.Chain' (fun a b => ¬(a = '_' ∧ b = '_'))
  ∧ (∀ l ∈ r.getLast?, l.isDigit = true)

/-- Declarative description of a digit group of Python's numeric
literals: nonempty, digits and underscores only, starting and ending in
a digit, no two adjacent underscores. -/
def GoodDigits (ds : List Char) : Prop :=
  ds ≠ [] ∧ (∀ c ∈ ds, c.isDigit = true ∨ c = '_')
  ∧ (∀ h ∈ ds.head?, h.isDigit = true)
  ∧ (∀ l ∈ ds.getLast?, l.isDigit = true)
  ∧ ds.Chain' (fun a b => ¬(a = '_' ∧ b = '_'))

/-- Declarative description of the strings accepted by Python `int`:
optional surrounding whitespace, an optional single sign, then a digit
group. -/
def PyIntGrammar (cs : List Char) : Prop :=
  ∃ a s core b, cs = a ++ s ++ core ++ b
    ∧ (∀ c ∈ a, isPySpace c = true) ∧ (∀ c ∈ b, isPySpace c = true)
    ∧ (s = [] ∨ s = ['+'] ∨ s = ['-']) ∧ GoodDigits core

/-! ## Sanity checks on concrete inputs -/

example :
    extractTransactionBlocks "transaction: \x7ba:1\x7d transaction: \x7bb:2\x7d".toList
      = ["a:1".toList, "b:2".toList] := by decide

example :
    extractTransactionBlocks "transaction: \x7bmeta: '\x7b\"a\":1\x7d'\x7d".toList
      = ["meta: '\x7b\"a\":1\x7d'".toList] := by decide

example :
    extractTransactionBlocks "transaction: \x7bnote: 'it\\'s fine'\x7d".toList
      = ["note: 'it\\'s fine'".toList] := by decide

example :
    extractTransactionBlocks "transaction: \x7ba:1".toList = [] := by decide

example : coerceValue " 'v',".toList = .str "v".toList := by decide

example : coerceValue " 2,".toList = .int 2 := by decide

example : coerceValue " TRUE".toList = .bool true := by decide

example : coerceValue " -12.50,".toList = .float "-12.50".toList := by decide

example : coerceValue "12a".toList = .str "12a".toList := by decide

example : coerceValue "+5".toList = .int 5 := by decide

example : coerceValue "1_0".toList = .int 10 := by decide

example : coerceValue "'a'b'".toList = .str "a'b".toList := by decide

example : coerceValue "1e5".toList = .str "1e5".toList := by decide

example : coerceValue "1.5e+3".toList = .float "1.5e+3".toList := by decide

example : coerceValue "1.5.2".toList = .str "1.5.2".toList := by decide

example : splitlinesPy "a\n\nb\r\nc".toList
    = ["a".toList, [], "b".toList, "c".toList] := by decide

example : splitlinesPy "a\n".toList = ["a".toList] := by decide

example : splitlinesPy "".toList = [] := by decide

example : splitlinesPy "\n".toList = [[]] := by decide

example : parseBlockToDict "k: 'v', \n n: 2, \n ok: true".toList
    = [("k".toList, .str "v".toList), ("n".toList, .int 2),
       ("ok".toList, .bool true)] := by decide

example : parseBlockToDict "a: 1\na: 2".toList
    = [("a".toList, .int 2)] := by decide

example : parseBlockToDict " \x7b \njunk\n \x7d,".toList = [] := by decide

example : extractDateFromSourcefile "2025-08-30__000000.log".toList
    = "2025-08-30".toList := by decide

example : extractDateFromSourcefile "run.log".toList = [] := by decide

/-! ## Lemmas and claim theorems -/

theorem stateAfter_nil (st : ScanState) : stateAfter [] st = st := rfl

theorem stateAfter_cons (c : Char) (cs : List Char) (st : ScanState) :
    stateAfter (c :: cs) st = stateAfter cs (scanStep st c) := rfl

/-- `scanClose` finds exactly the first offset whose character closes the
block in the state reached by folding `scanStep` over the preceding
characters. -/
theorem scanClose_eq_some_iff {cs : List Char} {j0 r : Nat} {st : ScanState} :
    scanClose cs j0 st = some r ↔
      ∃ pre c post, cs = pre ++ c :: post ∧ r = j0 + pre.length ∧
        closesBlock (stateAfter pre st) c = true ∧
        (∀ pre' c' post', cs = pre' ++ c' :: post' →
          pre'.length < pre.length →
          closesBlock (stateAfter pre' st) c' = false) := by
  induction cs generalizing j0 st with
  | nil =>
    constructor
    · intro h; simp [scanClose] at h
    · rintro ⟨pre, c, post, h, -⟩
      exact absurd h (by simp)
  | cons ch rest ih =>
    by_cases hc : closesBlock st ch = true
    · constructor
      · intro h
        simp only [scanClose, hc, if_true] at h
        obtain rfl : j0 = r := by simpa using h
        refine ⟨[], ch, rest, rfl, by simp, by simpa [stateAfter_nil] using hc, ?_⟩
        intro pre' c' post' _ hlen
        exact absurd hlen (by simp)
      · rintro ⟨pre, c, post, hdec, hr, hcl, hmin⟩
        cases pre with
        | nil =>
          obtain ⟨rfl, rfl⟩ : ch = c ∧ rest = post := by simpa using hdec
          obtain rfl : r = j0 := by simpa using hr
          simp [scanClose, hc]
        | cons p ps =>
          have h0 := hmin [] ch rest rfl (by simp)
          rw [stateAfter_nil] at h0
          exact absurd hc (by simp [h0])
    · have hcf : closesBlock st ch = false := by simpa using hc
      have hstep : scanClose (ch :: rest) j0 st
          = scanClose rest (j0 + 1) (scanStep st ch) := by
        simp [scanClose, hcf]
      rw [hstep, ih]
      constructor
      · rintro ⟨pre, c, post, hdec, hr, hcl, hmin⟩
        refine ⟨ch :: pre, c, post, by simp [hdec], ?_, by simpa [stateAfter_cons] using hcl, ?_⟩
        · simp only [List.length_cons]; omega
        · rintro pre' c' post' hd hlen
          cases pre' with
          | nil =>
            obtain ⟨rfl, -⟩ : ch = c' ∧ rest = post' := by simpa using hd
            simpa [stateAfter_nil] using hcf
          | cons p ps =>
            obtain ⟨hp, hd2⟩ : ch = p ∧ rest = ps ++ c' :: post' := by simpa using hd
            subst hp
            have := hmin ps c' post' hd2 (by simp at hlen; omega)
            simpa [stateAfter_cons] using this
      · rintro ⟨pre, c, post, hdec, hr, hcl, hmin⟩
        cases pre with
        | nil =>
          obtain ⟨rfl, rfl⟩ : ch = c ∧ rest = post := by simpa using hdec
          rw [stateAfter_nil] at hcl
          exact absurd hcl (by simp [hcf])
        | cons p ps =>
          obtain ⟨hp, hdec2⟩ : ch = p ∧ rest = ps ++ c :: post := by simpa using hdec
          subst hp
          refine ⟨ps, c, post, hdec2, by simp at hr ⊢; omega, by simpa [stateAfter_cons] using hcl, ?_⟩
          rintro pre' c' post' hd hlen
          have := hmin (ch :: pre') c' post' (by simp [hd]) (by simp; omega)
          simpa [stateAfter_cons] using this

theorem listSlice_eq_take_drop {text : List Char} {b j : Nat} (hb : b ≤ j) :
    listSlice text b j = (text.drop b).take (j - b) := by
  have h := List.take_drop b (j - b) text
  rw [Nat.add_sub_cancel' hb] at h
  exact h.symm

/-- A successful `matchBlock` returns the slice strictly between the
opening brace and the **first** closing offset, and resumes just past it. -/
theorem matchBlock_spec {text : List Char} {b resume : Nat}
    {inner : List Char} (h : matchBlock text b = some (inner, resume)) :
    ∃ j, b ≤ j ∧ j < text.length ∧ inner = listSlice text (b + 1) j ∧
      resume = j + 1 ∧ closesAt text b j ∧
      ∀ j', b ≤ j' → j' < j → ¬ closesAt text b j' := by
  unfold matchBlock at h
  cases hs : scanClose (text.drop b) b initState with
  | none => rw [hs] at h; exact absurd h (by simp)
  | some j =>
    rw [hs] at h
    obtain ⟨hin, hres⟩ : listSlice text (b + 1) j = inner ∧ j + 1 = resume := by
      simpa using h
    obtain ⟨pre, c, post, hdec, hj, hcl, hmin⟩ := scanClose_eq_some_iff.1 hs
    subst hj
    have hlen : text.length - b = pre.length + (post.length + 1) := by
      have := congrArg List.length hdec
      simpa using this
    have hjlt : b + pre.length < text.length := by omega
    have hble : b ≤ b + pre.length := by omega
    have hslice : listSlice text b (b + pre.length) = pre := by
      rw [listSlice_eq_take_drop hble, Nat.add_sub_cancel_left, hdec]
      exact List.take_left pre (c :: post)
    have hdropj : text.drop (b + pre.length) = c :: post := by
      rw [← List.drop_drop, hdec]
      exact List.drop_left pre (c :: post)
    refine ⟨b + pre.length, hble, hjlt, hin.symm, hres.symm,
      ⟨c, post, hdropj, by rw [hslice]; exact hcl⟩, ?_⟩
    rintro j' hbj' hj'lt ⟨c', post', hdrop', hcl'⟩
    have hk : j' - b < pre.length := by omega
    have hslice' : listSlice text b j' = (text.drop b).take (j' - b) :=
      listSlice_eq_take_drop hbj'
    have hdrop'' : (text.drop b).drop (j' - b) = c' :: post' := by
      rw [List.drop_drop, Nat.add_sub_cancel' hbj']
      exact hdrop'
    have hdec' : text.drop b = (text.drop b).take (j' - b) ++ c' :: post' := by
      rw [← hdrop'']
      exact (List.take_append_drop _ _).symm
    have hlen' : ((text.drop b).take (j' - b)).length < pre.length := by
      rw [List.length_take, List.length_drop]
      omega
    have := hmin _ c' post' hdec' hlen'
    rw [← hslice'] at this
    rw [this] at hcl'
    exact absurd hcl' (by simp)

/-- When some offset closes the block, `matchBlock` succeeds. -/
theorem matchBlock_isSome_of_closesAt {text : List Char} {b j : Nat}
    (hb : b ≤ j) (hcl : closesAt text b j) :
    ∃ p, matchBlock text b = some p := by
  classical
  have hP : ∃ k, b ≤ k ∧ closesAt text b k := ⟨j, hb, hcl⟩
  haveI : DecidablePred fun k => b ≤ k ∧ closesAt text b k :=
    Classical.decPred _
  obtain ⟨hbm, c, post, hdropm, hclsm⟩ := Nat.find_spec hP
  have hminP := fun m' (hlt : m' < Nat.find hP) => Nat.find_min hP hlt
  set m := Nat.find hP with hmdef
  have hmlt : m < text.length := by
    by_contra hx
    rw [List.drop_eq_nil_of_le (by omega)] at hdropm
    exact absurd hdropm (by simp)
  have hlenl : (text.drop b).length = text.length - b := List.length_drop b text
  have hkl : m - b < (text.drop b).length := by omega
  have hdropk : (text.drop b).drop (m - b) = c :: post := by
    rw [List.drop_drop, Nat.add_sub_cancel' hbm]
    exact hdropm
  have hdec : text.drop b = (text.drop b).take (m - b) ++ c :: post := by
    rw [← hdropk]
    exact (List.take_append_drop _ _).symm
  have hlent : ((text.drop b).take (m - b)).length = m - b := by
    rw [List.length_take]
    omega
  have hclst : closesBlock (stateAfter ((text.drop b).take (m - b)) initState) c
      = true := by
    rw [← listSlice_eq_take_drop hbm]
    exact hclsm
  have hscan : scanClose (text.drop b) b initState = some m := by
    rw [scanClose_eq_some_iff]
    refine ⟨(text.drop b).take (m - b), c, post, hdec, by omega, hclst, ?_⟩
    intro pre' c' post' hdec' hlen'
    by_contra hx
    have hcb : closesBlock (stateAfter pre' initState) c' = true := by
      simpa using hx
    have hdropj' : text.drop (b + pre'.length) = c' :: post' := by
      rw [← List.drop_drop, hdec']
      exact List.drop_left pre' (c' :: post')
    have hslicej' : listSlice text b (b + pre'.length) = pre' := by
      rw [listSlice_eq_take_drop (by omega), Nat.add_sub_cancel_left, hdec']
      exact List.take_left pre' (c' :: post')
    have hPj' : b ≤ b + pre'.length ∧ closesAt text b (b + pre'.length) :=
      ⟨by omega, c', post', hdropj', by rw [hslicej']; exact hcb⟩
    have : b + pre'.length < m := by
      rw [hlent] at hlen'
      omega
    exact hminP _ this hPj'
  refine ⟨(listSlice text (b + 1) m, m + 1), ?_⟩
  unfold matchBlock
  rw [hscan]

theorem pyFind_bounds {text pat : List Char} {start k : Nat}
    (h : pyFind text pat start = some k) :
    start ≤ k ∧ k ≤ text.length := by
  unfold pyFind at h
  have hp := List.find?_some h
  have hm := List.mem_of_find?_eq_some h
  rw [List.mem_range] at hm
  simp only [Bool.and_eq_true, decide_eq_true_eq] at hp
  exact ⟨hp.1, by omega⟩

theorem matchBlock_bounds {text : List Char} {b resume : Nat}
    {inner : List Char} (h : matchBlock text b = some (inner, resume)) :
    b < resume ∧ resume ≤ text.length := by
  obtain ⟨j, hbj, hjlt, -, hres, -, -⟩ := matchBlock_spec h
  omega

/-- **C1.**  For every text and every offset of an opening brace, a
successful run of the delimiter matcher returns the inner substring
strictly between the opening brace and the first offset at which the
nesting depth of unquoted braces returns to zero (both braces excluded),
together with the resume offset just past that closing brace, and it
succeeds whenever such a closing offset exists; moreover a character seen
inside a single- or double-quoted span never changes the depth, and a
quote character of one kind seen inside a span of the other kind is
literal, toggling neither quote flag. -/
theorem claim_C1_delimiter_matcher :
    (∀ (text : List Char) (b resume : Nat) (inner : List Char),
        matchBlock text b = some (inner, resume) →
        ∃ j, b ≤ j ∧ j < text.length ∧ inner = listSlice text (b + 1) j ∧
          resume = j + 1 ∧ closesAt text b j ∧
          ∀ j', b ≤ j' → j' < j → ¬ closesAt text b j')
    ∧ (∀ (text : List Char) (b j : Nat), b ≤ j → closesAt text b j →
        ∃ p, matchBlock text b = some p)
    ∧ (∀ (st : ScanState) (c : Char), st.in_sq = true ∨ st.in_dq = true →
        (scanStep st c).depth = st.depth)
    ∧ (∀ st : ScanState, st.in_dq = true → st.esc = false →
        scanStep st '\'' = st)
    ∧ (∀ st : ScanState, st.in_sq = true → st.esc = false →
        scanStep st '"' = st) := by
  refine ⟨fun text b resume inner h => matchBlock_spec h,
    fun text b j hb hcl => matchBlock_isSome_of_closesAt hb hcl, ?_, ?_, ?_⟩
  · intro st c hq
    unfold scanStep
    rcases hq with h | h <;> split_ifs <;> simp_all
  · intro st h1 h2
    simp [scanStep, h1, h2]
  · intro st h1 h2
    simp [scanStep, h1, h2]

/-- Witness for C1 at the spec's nested-brace example and concrete
scanner states. -/
theorem claim_C1_delimiter_matcher_witness :
    (∃ j, 13 ≤ j ∧ j < ("transaction: \x7bmeta: '\x7b\"a\":1\x7d'\x7d".toList).length ∧
      "meta: '\x7b\"a\":1\x7d'".toList
        = listSlice "transaction: \x7bmeta: '\x7b\"a\":1\x7d'\x7d".toList 14 j ∧
      30 = j + 1 ∧ closesAt "transaction: \x7bmeta: '\x7b\"a\":1\x7d'\x7d".toList 13 j ∧
      ∀ j', 13 ≤ j' → j' < j →
        ¬ closesAt "transaction: \x7bmeta: '\x7b\"a\":1\x7d'\x7d".toList 13 j')
    ∧ (∃ p, matchBlock "transaction: \x7b\x7d".toList 13 = some p)
    ∧ (scanStep ⟨5, true, false, false⟩ '{').depth = 5
    ∧ scanStep ⟨0, false, true, false⟩ '\'' = ⟨0, false, true, false⟩
    ∧ scanStep ⟨0, true, false, false⟩ '"' = ⟨0, true, false, false⟩ :=
  ⟨claim_C1_delimiter_matcher.1 _ 13 30 _ (by decide),
   claim_C1_delimiter_matcher.2.1 "transaction: \x7b\x7d".toList 13 14 (by decide)
     ⟨'}', [], by decide, by decide⟩,
   claim_C1_delimiter_matcher.2.2.1 _ '{' (Or.inl rfl),
   claim_C1_delimiter_matcher.2.2.2.1 _ rfl rfl,
   claim_C1_delimiter_matcher.2.2.2.2 _ rfl rfl⟩

/-- **C2.**  A backslash sets the escape flag for exactly the next
character; while the flag is set, the next character — brace or quote
included — is literal: the state keeps its depth and both quote flags,
only the escape flag is cleared, and no escaped character can close the
block. -/
theorem claim_C2_escape_flag :
    (∀ (st : ScanState) (c : Char), st.esc = true →
        scanStep st c = ⟨st.depth, st.in_sq, st.in_dq, false⟩)
    ∧ (∀ st : ScanState, st.esc = false →
        scanStep st '\\' = ⟨st.depth, st.in_sq, st.in_dq, true⟩)
    ∧ (∀ (st : ScanState) (c : Char), st.esc = true →
        closesBlock st c = false) := by
  refine ⟨?_, ?_, ?_⟩
  · intro st c h
    simp [scanStep, h]
  · intro st h
    simp [scanStep, h]
  · intro st c h
    simp [closesBlock, h]

/-- Witness for C2: an escaped quote inside a single-quoted span leaves
depth and quote flags unchanged. -/
theorem claim_C2_escape_flag_witness :
    scanStep ⟨2, true, false, true⟩ '\'' = ⟨2, true, false, false⟩
    ∧ scanStep ⟨2, true, false, false⟩ '\\' = ⟨2, true, false, true⟩
    ∧ closesBlock ⟨1, false, false, true⟩ '}' = false :=
  ⟨claim_C2_escape_flag.1 _ '\'' rfl, claim_C2_escape_flag.2.1 _ rfl,
   claim_C2_escape_flag.2.2 _ '}' rfl⟩

/-- **C3.**  When a marker and an opening brace are found but the block
is unterminated, the extractor yields no further blocks from that point
(and, by the step equation, all blocks found earlier in the same text
are kept); extraction is a total function and never raises. -/
theorem claim_C3_unterminated_failsoft :
    (∀ (text : List Char) (fuel i start b : Nat),
        pyFind text markerChars i = some start →
        pyFind text ['{'] start = some b →
        matchBlock text b = none →
        extractAux text fuel i = [])
    ∧ (∀ (text : List Char) (fuel i start b resume : Nat)
        (inner : List Char),
        pyFind text markerChars i = some start →
        pyFind text ['{'] start = some b →
        matchBlock text b = some (inner, resume) →
        extractAux text (fuel + 1) i = inner :: extractAux text fuel resume) := by
  constructor
  · intro text fuel i start b h1 h2 h3
    cases fuel with
    | zero => rfl
    | succ n => simp [extractAux, h1, h2, h3]
  · intro text fuel i start b resume inner h1 h2 h3
    simp [extractAux, h1, h2, h3]

/-- Witness for C3: one terminated block followed by an unterminated
one — the first block is kept, nothing follows, no error. -/
theorem claim_C3_unterminated_failsoft_witness :
    extractAux "transaction: \x7ba:1\x7d transaction: \x7bb".toList 35 0
      = "a:1".toList :: extractAux "transaction: \x7ba:1\x7d transaction: \x7bb".toList 34 18
    ∧ extractAux "transaction: \x7ba:1\x7d transaction: \x7bb".toList 34 18 = [] :=
  ⟨claim_C3_unterminated_failsoft.2 _ 34 0 0 13 18 "a:1".toList
      (by decide) (by decide) (by decide),
   claim_C3_unterminated_failsoft.1 _ 34 18 19 32
      (by decide) (by decide) (by decide)⟩

theorem pyFind_eq_none_of_lt {text pat : List Char} {start : Nat}
    (h : text.length < start) : pyFind text pat start = none := by
  unfold pyFind
  rw [List.find?_eq_none]
  intro k hk
  rw [List.mem_range] at hk
  simp only [Bool.and_eq_true, decide_eq_true_eq, not_and]
  intro hs
  omega

/-- The fuel used by `extractTransactionBlocks` is adequate: any two
sufficient fuels agree, so the embedding computes the full block list. -/
theorem extractAux_fuel_adequate (text : List Char) :
    ∀ (fuel fuel' i : Nat),
      text.length + 1 ≤ fuel + i → text.length + 1 ≤ fuel' + i →
      extractAux text fuel i = extractAux text fuel' i := by
  intro fuel
  induction fuel with
  | zero =>
    intro fuel' i h h'
    have hnone : pyFind text markerChars i = none :=
      pyFind_eq_none_of_lt (by omega)
    cases fuel' with
    | zero => rfl
    | succ n => simp [extractAux, hnone]
  | succ n ih =>
    intro fuel' i h h'
    cases fuel' with
    | zero =>
      have hnone : pyFind text markerChars i = none :=
        pyFind_eq_none_of_lt (by omega)
      simp [extractAux, hnone]
    | succ n' =>
      cases h1 : pyFind text markerChars i with
      | none => simp [extractAux, h1]
      | some start =>
        cases h2 : pyFind text ['{'] start with
        | none => simp [extractAux, h1, h2]
        | some b =>
          cases h3 : matchBlock text b with
          | none => simp [extractAux, h1, h2, h3]
          | some q =>
            obtain ⟨inner, resume⟩ := q
            have hi1 := pyFind_bounds h1
            have hi2 := pyFind_bounds h2
            have hi3 := matchBlock_bounds h3
            simp only [extractAux, h1, h2, h3]
            exact congrArg (inner :: ·) (ih n' resume (by omega) (by omega))

theorem extractIdxAux_map_snd (text : List Char) :
    ∀ (fuel i : Nat),
      (extractIdxAux text fuel i).map Prod.snd = extractAux text fuel i := by
  intro fuel
  induction fuel with
  | zero => intro i; rfl
  | succ n ih =>
    intro i
    cases h1 : pyFind text markerChars i with
    | none => simp [extractIdxAux, extractAux, h1]
    | some start =>
      cases h2 : pyFind text ['{'] start with
      | none => simp [extractIdxAux, extractAux, h1, h2]
      | some b =>
        cases h3 : matchBlock text b with
        | none => simp [extractIdxAux, extractAux, h1, h2, h3]
        | some q =>
          obtain ⟨inner, resume⟩ := q
          simp [extractIdxAux, extractAux, h1, h2, h3, ih resume]

theorem mem_extractIdxAux_ge (text : List Char) :
    ∀ (fuel i : Nat) (p : Nat × List Char),
      p ∈ extractIdxAux text fuel i → i ≤ p.1 := by
  intro fuel
  induction fuel with
  | zero => intro i p hp; simp [extractIdxAux] at hp
  | succ n ih =>
    intro i p hp
    cases h1 : pyFind text markerChars i with
    | none => rw [extractIdxAux, h1] at hp; simp at hp
    | some start =>
      cases h2 : pyFind text ['{'] start with
      | none => simp [extractIdxAux, h1, h2] at hp
      | some b =>
        cases h3 : matchBlock text b with
        | none => simp [extractIdxAux, h1, h2, h3] at hp
        | some q =>
          obtain ⟨inner, resume⟩ := q
          rw [extractIdxAux] at hp
          rw [h1] at hp
          simp only [h2, h3, List.mem_cons] at hp
          have hi1 := pyFind_bounds h1
          have hi2 := pyFind_bounds h2
          have hi3 := matchBlock_bounds h3
          rcases hp with rfl | hp
          · simp; omega
          · have := ih resume p hp
            omega

/-- The opening-brace offsets of the extracted blocks are strictly
increasing: blocks are reported in left-to-right order. -/
theorem extractIdxAux_sorted (text : List Char) :
    ∀ (fuel i : Nat),
      ((extractIdxAux text fuel i).map Prod.fst).Pairwise (· < ·) := by
  intro fuel
  induction fuel with
  | zero => intro i; simp [extractIdxAux]
  | succ n ih =>
    intro i
    cases h1 : pyFind text markerChars i with
    | none => simp [extractIdxAux, h1]
    | some start =>
      cases h2 : pyFind text ['{'] start with
      | none => simp [extractIdxAux, h1, h2]
      | some b =>
        cases h3 : matchBlock text b with
        | none => simp [extractIdxAux, h1, h2, h3]
        | some q =>
          obtain ⟨inner, resume⟩ := q
          simp only [extractIdxAux, h1, h2, h3, List.map_cons]
          rw [List.pairwise_cons]
          refine ⟨?_, ih resume⟩
          intro a ha
          rw [List.mem_map] at ha
          obtain ⟨p, hp, rfl⟩ := ha
          have := mem_extractIdxAux_ge text n resume p hp
          have hi3 := matchBlock_bounds h3
          omega

theorem txns_foldl_eq_filterMap (name : List Char) :
    ∀ (bs : List (List Char)) (acc : List (List (List Char × FieldValue))),
      bs.foldl
        (fun acc b =>
          let d := parseBlockToDict b
          if d = [] then acc else acc ++ [assembleRecord d name]) acc
      = acc ++ bs.filterMap
          (fun b =>
            let d := parseBlockToDict b
            if d = [] then none else some (assembleRecord d name)) := by
  intro bs
  induction bs with
  | nil => intro acc; simp
  | cons b bs ih =>
    intro acc
    by_cases hd : parseBlockToDict b = [] <;>
      simp [hd, ih, List.append_assoc]

theorem allTxns_foldl_eq_flatMap :
    ∀ (files : List (List Char × List Char))
      (acc : List (List (List Char × FieldValue))),
      files.foldl (fun acc f => acc ++ txnsFromText f.1 f.2) acc
        = acc ++ files.flatMap (fun f => txnsFromText f.1 f.2) := by
  intro files
  induction files with
  | nil => intro acc; simp
  | cons f fs ih =>
    intro acc
    simp [ih, List.append_assoc]

/-- **C6.**  Blocks are extracted in strictly increasing order of their
opening-brace offsets; each extracted block with a nonempty decoded dict
yields its own record, in block order (`filterMap` preserves order and
multiplicity); and a run's records are the per-file record lists
concatenated in file processing order. -/
theorem claim_C6_record_order :
    (∀ text : List Char,
        (extractIdx text).map Prod.snd = extractTransactionBlocks text)
    ∧ (∀ text : List Char,
        ((extractIdx text).map Prod.fst).Pairwise (· < ·))
    ∧ (∀ name text : List Char,
        txnsFromText name text = (extractTransactionBlocks text).filterMap
          (fun b =>
            let d := parseBlockToDict b
            if d = [] then none else some (assembleRecord d name)))
    ∧ (∀ files : List (List Char × List Char),
        allTxnsPure files = files.flatMap (fun f => txnsFromText f.1 f.2)) := by
  refine ⟨fun text => extractIdxAux_map_snd text _ 0,
    fun text => extractIdxAux_sorted text _ 0, ?_, ?_⟩
  · intro name text
    simpa using txns_foldl_eq_filterMap name (extractTransactionBlocks text) []
  · intro files
    simpa using allTxns_foldl_eq_flatMap files []

theorem lookupD_append (l1 l2 : List (List Char × FieldValue)) (k : List Char) :
    lookupD (l1 ++ l2) k = (lookupD l1 k).or (lookupD l2 k) := by
  induction l1 with
  | nil => simp [lookupD]
  | cons p rest ih =>
    by_cases h : p.1 = k <;> simp [lookupD, h, ih, Option.or]

theorem lookupD_eq_none_of_not_mem {l : List (List Char × FieldValue)}
    {k : List Char} (h : l.any (fun p => p.1 = k) = false) :
    lookupD l k = none := by
  induction l with
  | nil => rfl
  | cons p rest ih =>
    simp only [List.any_cons, Bool.or_eq_false_iff] at h
    have h1 : p.1 ≠ k := by simpa using h.1
    simp [lookupD, h1, ih h.2]

theorem lookupD_map_update_ne {l : List (List Char × FieldValue)}
    {a k : List Char} {v : FieldValue} (h : a ≠ k) :
    lookupD (l.map (fun p => if p.1 = a then (a, v) else p)) k
      = lookupD l k := by
  induction l with
  | nil => rfl
  | cons p rest ih =>
    by_cases hpa : p.1 = a
    · have hpk : p.1 ≠ k := fun hx => h (hpa ▸ hx)
      simp [lookupD, hpa, h, hpk, ih, Ne.symm h]
    · by_cases hpk : p.1 = k <;> simp [lookupD, hpa, hpk, ih, Ne.symm h]

theorem lookupD_map_update_self {l : List (List Char × FieldValue)}
    {a : List Char} {v : FieldValue}
    (hmem : l.any (fun p => p.1 = a) = true) :
    lookupD (l.map (fun p => if p.1 = a then (a, v) else p)) a = some v := by
  induction l with
  | nil => simp at hmem
  | cons p rest ih =>
    by_cases hpa : p.1 = a
    · simp [lookupD, hpa]
    · have hmem' : rest.any (fun p => p.1 = a) = true := by
        simpa [List.any_cons, hpa] using hmem
      simp [lookupD, hpa, ih hmem']

/-- Python assignment `d[a] = v` followed by lookup: the inserted key
reads back the new value, all other keys are untouched. -/
theorem lookupD_dictInsert (l : List (List Char × FieldValue))
    (a k : List Char) (v : FieldValue) :
    lookupD (dictInsert l a v) k = if a = k then some v else lookupD l k := by
  unfold dictInsert
  by_cases hmem : l.any (fun p => p.1 = a) = true
  · rw [if_pos hmem]
    by_cases hak : a = k
    · subst hak
      simp [lookupD_map_update_self hmem]
    · simp [lookupD_map_update_ne hak, hak]
  · have hmem' : l.any (fun p => p.1 = a) = false := by
      cases hx : l.any (fun p => p.1 = a)
      · rfl
      · exact absurd hx hmem
    rw [if_neg hmem, lookupD_append]
    by_cases hak : a = k
    · subst hak
      simp [lookupD_eq_none_of_not_mem hmem', lookupD, Option.or]
    · simp [lookupD, hak, Option.or]
      cases lookupD l k <;> rfl

theorem map_fst_dictInsert (l : List (List Char × FieldValue))
    (a : List Char) (v : FieldValue) :
    (dictInsert l a v).map Prod.fst
      = if l.any (fun p => p.1 = a) then l.map Prod.fst
        else l.map Prod.fst ++ [a] := by
  unfold dictInsert
  split_ifs with h
  · rw [List.map_map]
    apply List.map_congr_left
    intro p _
    by_cases hpa : p.1 = a <;> simp [Function.comp, hpa]
  · simp

theorem nodup_keys_dictInsert {l : List (List Char × FieldValue)}
    {a : List Char} {v : FieldValue} (h : (l.map Prod.fst).Nodup) :
    ((dictInsert l a v).map Prod.fst).Nodup := by
  rw [map_fst_dictInsert]
  split_ifs with hmem
  · exact h
  · have ha : a ∉ l.map Prod.fst := by
      intro hx
      rw [List.mem_map] at hx
      obtain ⟨p, hp, hfst⟩ := hx
      have : l.any (fun p => p.1 = a) = true :=
        List.any_eq_true.2 ⟨p, hp, by simpa using hfst⟩
      exact hmem (by simpa using this)
    simp [List.nodup_append, h, ha]

/-- Lookup after folding decoded lines into the dict: the value of `k`
is the coerced value of the **last** decodable line whose key is `k`. -/
theorem lookupD_parse_foldl (k : List Char) :
    ∀ (lines : List (List Char)) (acc : List (List Char × FieldValue)),
      lookupD
        (lines.foldl
          (fun d raw =>
            match lineKV raw with
            | none => d
            | some (k, v) => dictInsert d k v) acc) k
      = (((lines.filterMap lineKV).reverse.find?
            (fun p => p.1 = k)).map Prod.snd).or (lookupD acc k) := by
  intro lines
  induction lines with
  | nil => intro acc; simp
  | cons raw rest ih =>
    intro acc
    cases hkv : lineKV raw with
    | none => simp [hkv, ih]
    | some kv =>
      obtain ⟨a, v⟩ := kv
      simp only [List.foldl_cons, hkv]
      rw [ih (dictInsert acc a v), List.filterMap_cons]
      simp only [hkv, List.reverse_cons, List.find?_append]
      rw [lookupD_dictInsert]
      cases hf : (rest.filterMap lineKV).reverse.find? (fun p => p.1 = k) with
      | some q => simp [Option.or]
      | none =>
        by_cases hak : a = k
        · subst hak
          simp [List.find?, Option.or]
        · simp [List.find?, hak, Option.or]

theorem nodup_keys_parse_foldl :
    ∀ (lines : List (List Char)) (acc : List (List Char × FieldValue)),
      (acc.map Prod.fst).Nodup →
      ((lines.foldl
          (fun d raw =>
            match lineKV raw with
            | none => d
            | some (k, v) => dictInsert d k v) acc).map Prod.fst).Nodup := by
  intro lines
  induction lines with
  | nil => intro acc h; exact h
  | cons raw rest ih =>
    intro acc h
    cases hkv : lineKV raw with
    | none => simpa [hkv] using ih acc h
    | some kv =>
      obtain ⟨a, v⟩ := kv
      simpa [hkv] using ih (dictInsert acc a v) (nodup_keys_dictInsert h)

/-- **C7 (counterexample).**  The block `a: 1\na: 2` has two decodable
field lines, yet the decoded record has a single entry (the later line
overwrote the earlier one), so not every field line contributes its own
entry. -/
theorem claim_C7_counterexample :
    parseBlockToDict ("a: 1\na: 2".toList)
      = [("a".toList, FieldValue.int 2)]
    ∧ ((splitlinesPy ("a: 1\na: 2".toList)).filterMap lineKV).length = 2
    ∧ (parseBlockToDict ("a: 1\na: 2".toList)).length ≠ 2 := by decide

/-- **C7 (amended).**  Field names are kept case-sensitive exactly as
decoded and no key is dropped: a key is bound in the record precisely
when some non-skipped line (lines that are empty, a bare brace token, or
lack a `:` are skipped) decodes to it, its value is the value of the
last such line, and the record binds each key once. -/
theorem claim_C7_fields_kept :
    ∀ block : List Char,
      (∀ k : List Char,
        lookupD (parseBlockToDict block) k
          = (((splitlinesPy block).filterMap lineKV).reverse.find?
              (fun p => p.1 = k)).map Prod.snd)
      ∧ ((parseBlockToDict block).map Prod.fst).Nodup := by
  intro block
  constructor
  · intro k
    have h := lookupD_parse_foldl k (splitlinesPy block) []
    simpa [parseBlockToDict, lookupD] using h
  · exact nodup_keys_parse_foldl (splitlinesPy block) [] (by simp)

/-- **C10.**  The provenance assignment overwrites any decoded field
named `sourcefile` or `date`: in every assembled record, `sourcefile`
reads back the file name and `date` the value derived from that name,
whatever the decoded dict contained. -/
theorem claim_C10_provenance_overwrite :
    ∀ (d : List (List Char × FieldValue)) (name : List Char),
      lookupD (assembleRecord d name) ("sourcefile".toList)
        = some (.str name)
      ∧ lookupD (assembleRecord d name) ("date".toList)
        = some (.str (extractDateFromSourcefile name)) := by
  intro d name
  unfold assembleRecord
  constructor
  · rw [lookupD_dictInsert, if_neg (by decide), lookupD_dictInsert, if_pos rfl]
  · rw [lookupD_dictInsert, if_pos rfl]

/-- **C5 (counterexample).**  In `'a'b'` the identical first and last
quote characters do not delimit one quoted span (the interior holds an
unescaped quote), so the claim says the value is left unchanged — yet
normalization strips the outer characters. -/
theorem claim_C5_counterexample :
    normalizeValue ("'a'b'".toList) = "a'b".toList
    ∧ normalizeValue ("'a'b'".toList) ≠ "'a'b'".toList := by decide

/-- **C5 (amended).**  Normalization strips the pair of outer characters
whenever the value begins with a quote character and ends with the same
one, whether or not they delimit a single quoted span. -/
theorem claim_C5_normalization :
    ∀ s : List Char, normalizeValue s = specNormalizeC5 s := by
  intro s
  simp only [normalizeValue, specNormalizeC5]
  cases hv2 : (if (stripPy s).getLast? = some ',' then
      rstripPy (stripPy s).dropLast else stripPy s) with
  | nil => simp
  | cons q rest =>
    cases rest with
    | nil => simp
    | cons r rs =>
      have hcond : (2 ≤ (q :: r :: rs).length
          ∧ (q :: r :: rs).head? = (q :: r :: rs).getLast?
          ∧ ((q :: r :: rs).head? = some '\''
              ∨ (q :: r :: rs).head? = some '"'))
          ↔ ((q = '\'' ∨ q = '"') ∧ r :: rs ≠ []
              ∧ (r :: rs).getLast? = some q) := by
        rw [List.getLast?_cons_cons]
        simp only [List.head?_cons, List.length_cons]
        constructor
        · rintro ⟨-, h2, h3⟩
          refine ⟨?_, by simp, h2.symm⟩
          rcases h3 with h3 | h3
          · exact Or.inl (by simpa using h3)
          · exact Or.inr (by simpa using h3)
        · rintro ⟨h1, -, h3⟩
          refine ⟨by omega, h3.symm, ?_⟩
          rcases h1 with rfl | rfl
          · exact Or.inl rfl
          · exact Or.inr rfl
      show (if 2 ≤ (q :: r :: rs).length
          ∧ (q :: r :: rs).head? = (q :: r :: rs).getLast?
          ∧ ((q :: r :: rs).head? = some '\''
              ∨ (q :: r :: rs).head? = some '"') then
            (r :: rs).dropLast
          else q :: r :: rs)
        = (if (q = '\'' ∨ q = '"') ∧ r :: rs ≠ []
              ∧ (r :: rs).getLast? = some q then
            (r :: rs).dropLast
          else q :: r :: rs)
      exact if_congr hcond rfl rfl

theorem startsWithDate_iff (name : List Char) :
    StartsWithDate name ↔ dateRegexAccepts name = true := by
  constructor
  · rintro ⟨y1, y2, y3, y4, m1, m2, d1, d2, rest, rfl,
      h1, h2, h3, h4, h5, h6, h7, h8⟩
    simp [dateRegexAccepts, h1, h2, h3, h4, h5, h6, h7, h8]
  · intro h
    rcases name with _ | ⟨y1, _ | ⟨y2, _ | ⟨y3, _ | ⟨y4, _ | ⟨c5, _ | ⟨m1,
      _ | ⟨m2, _ | ⟨c8, _ | ⟨d1, _ | ⟨d2, rest⟩⟩⟩⟩⟩⟩⟩⟩⟩⟩ <;>
      simp only [dateRegexAccepts] at h
    all_goals first
    | exact absurd h (by decide)
    | (simp only [Bool.and_eq_true, beq_iff_eq, and_assoc] at h
       obtain ⟨hy1, hy2, hy3, hy4, hc5, hm1, hm2, hc8, hd1, hd2⟩ := h
       subst hc5; subst hc8
       exact ⟨y1, y2, y3, y4, m1, m2, d1, d2, rest, rfl,
         hy1, hy2, hy3, hy4, hm1, hm2, hd1, hd2⟩)

/-- **C8.**  The `date` field equals the leading ten-character
`YYYY-MM-DD` prefix when the file name starts with that exact pattern,
and the empty string otherwise. -/
theorem claim_C8_date_extraction :
    ∀ name : List Char,
      (StartsWithDate name → extractDateFromSourcefile name = name.take 10)
      ∧ (¬ StartsWithDate name → extractDateFromSourcefile name = []) := by
  intro name
  constructor
  · intro h
    rw [extractDateFromSourcefile, if_pos ((startsWithDate_iff name).1 h)]
  · intro h
    rw [extractDateFromSourcefile,
      if_neg (fun hx => h ((startsWithDate_iff name).2 hx))]

/-- Witness for C8 at the spec's two example file names. -/
theorem claim_C8_date_extraction_witness :
    extractDateFromSourcefile ("2025-08-30__000000.log".toList)
      = ("2025-08-30__000000.log".toList).take 10
    ∧ extractDateFromSourcefile ("run.log".toList) = [] :=
  ⟨(claim_C8_date_extraction _).1
      ⟨'2', '0', '2', '5', '0', '8', '3', '0', "__000000.log".toList,
        by decide, rfl, rfl, rfl, rfl, rfl, rfl, rfl, rfl⟩,
   (claim_C8_date_extraction _).2
      (by
        rintro ⟨y1, y2, y3, y4, m1, m2, d1, d2, rest, heq, -⟩
        have h7 : ("run.log".toList).length = 7 := by decide
        rw [heq] at h7
        simp only [List.length_cons] at h7
        omega)⟩

theorem collect_foldl_error (files : List ModelFile) :
    ∀ e, files.foldl collectStep (.error e) = .error e := by
  induction files with
  | nil => intro e; rfl
  | cons f fs ih => intro e; exact ih e

theorem collect_foldl_ok (files : List ModelFile) :
    ∀ ts, (∀ f ∈ files, (∃ t, f.read1 = .ok t) ∨ (∃ t, f.read2 = .ok t)) →
      ∃ rs, files.foldl collectStep (.ok ts) = .ok rs := by
  induction files with
  | nil => intro ts _; exact ⟨ts, rfl⟩
  | cons f fs ih =>
    intro ts hall
    have hf := hall f (List.mem_cons_self f fs)
    have hrest := fun g hg => hall g (List.mem_cons_of_mem f hg)
    have hok : ∃ u, parseTransactionsFromFile f = .ok u := by
      unfold parseTransactionsFromFile
      rcases hf with ⟨t, ht⟩ | ⟨t, ht⟩
      · rw [ht]; exact ⟨_, rfl⟩
      · cases h1 : f.read1 with
        | ok u => exact ⟨_, rfl⟩
        | error e => rw [ht]; exact ⟨_, rfl⟩
    obtain ⟨u, hu⟩ := hok
    simp only [List.foldl_cons, collectStep, hu]
    exact ih (ts ++ u) hrest

theorem collect_foldl_err_of_mem (files : List ModelFile) :
    ∀ ts f, f ∈ files → f.read1 = .error () → f.read2 = .error () →
      files.foldl collectStep (.ok ts) = .error () := by
  induction files with
  | nil => intro ts f hf; exact absurd hf (by simp)
  | cons g gs ih =>
    intro ts f hf h1 h2
    rcases List.mem_cons.1 hf with rfl | hmem
    · have hperr : parseTransactionsFromFile f = .error () := by
        unfold parseTransactionsFromFile
        rw [h1, h2]
      simp only [List.foldl_cons, collectStep, hperr]
      exact collect_foldl_error gs ()
    · cases hp : parseTransactionsFromFile g with
      | ok more =>
        simp only [List.foldl_cons, collectStep, hp]
        exact ih (ts ++ more) f hmem h1 h2
      | error e =>
        simp only [List.foldl_cons, collectStep, hp]
        cases e
        exact collect_foldl_error gs ()

/-- **C9 (counterexample).**  A file whose two read attempts both raise
aborts the whole run: with such a file followed by a readable file that
contains a transaction, the driver loop propagates the exception instead
of skipping the bad file and keeping the later file's records. -/
theorem claim_C9_counterexample :
    collectAllTransactions
      [⟨"a.log".toList, .error (), .error ()⟩,
       ⟨"b.log".toList, .ok "transaction: \x7ba:1\x7d".toList, .error ()⟩]
      = .error ()
    ∧ parseTransactionsFromFile
        ⟨"b.log".toList, .ok "transaction: \x7ba:1\x7d".toList, .error ()⟩
      = .ok [assembleRecord [("a".toList, FieldValue.int 1)]
          ("b.log".toList)] :=
  ⟨rfl, rfl⟩

/-- **C9 (amended).**  A failure of a file's first read is caught and
the read is retried with the platform default encoding; when every file
is readable by one of its two attempts the run succeeds and no file is
skipped, but when any file fails both attempts the exception propagates
and the whole run aborts — the driver has no per-file catch-and-skip. -/
theorem claim_C9_read_failures :
    ∀ files : List ModelFile,
      ((∀ f ∈ files, (∃ t, f.read1 = .ok t) ∨ (∃ t, f.read2 = .ok t)) →
        ∃ rs, collectAllTransactions files = .ok rs)
      ∧ ((∃ f ∈ files, f.read1 = .error () ∧ f.read2 = .error ()) →
        collectAllTransactions files = .error ()) := by
  intro files
  constructor
  · intro hall
    exact collect_foldl_ok files [] hall
  · rintro ⟨f, hf, h1, h2⟩
    exact collect_foldl_err_of_mem files [] f hf h1 h2

/-- Witness for C9: a run of one readable file succeeds; a run holding a
file that fails both reads errors out. -/
theorem claim_C9_read_failures_witness :
    (∃ rs, collectAllTransactions
        [⟨"b.log".toList, .ok "transaction: \x7ba:1\x7d".toList, .error ()⟩]
      = .ok rs)
    ∧ collectAllTransactions [⟨"a.log".toList, .error (), .error ()⟩]
      = .error () :=
  ⟨(claim_C9_read_failures _).1
      (by
        rintro f hf
        rw [List.mem_singleton] at hf
        subst hf
        exact Or.inl ⟨_, rfl⟩),
   (claim_C9_read_failures _).2
      ⟨⟨"a.log".toList, .error (), .error ()⟩,
        List.mem_cons_self _ _, rfl, rfl⟩⟩

theorem digit_ne_underscore {c : Char} (h : c.isDigit = true) : c ≠ '_' := by
  intro hx
  subst hx
  exact absurd h (by decide)

theorem tailOK_cons_digit {c : Char} (hc : c.isDigit = true) (l : List Char) :
    TailOK (c :: l) ↔ TailOK l := by
  unfold TailOK
  constructor
  · rintro ⟨hall, hchain, hlast⟩
    refine ⟨fun x hx => hall x (by simp [hx]),
      (List.chain'_cons'.1 hchain).2, ?_⟩
    intro x hx
    cases l with
    | nil => simp at hx
    | cons a as =>
      rw [List.getLast?_cons_cons] at hlast
      exact hlast x hx
  · rintro ⟨hall, hchain, hlast⟩
    refine ⟨?_, List.chain'_cons'.2
      ⟨fun b hb h => digit_ne_underscore hc h.1, hchain⟩, ?_⟩
    · intro x hx
      rcases List.mem_cons.1 hx with rfl | hx
      · exact Or.inl hc
      · exact hall x hx
    · intro x hx
      cases l with
      | nil =>
        simp only [List.getLast?_singleton, Option.mem_def,
          Option.some.injEq] at hx
        subst hx
        exact hc
      | cons a as =>
        rw [List.getLast?_cons_cons] at hx
        exact hlast x hx

theorem tailOK_underscore_cons {d : Char} (hd : d.isDigit = true)
    (l : List Char) : TailOK ('_' :: d :: l) ↔ TailOK l := by
  unfold TailOK
  constructor
  · rintro ⟨hall, hchain, hlast⟩
    have hch2 : (d :: l).Chain' (fun a b => ¬(a = '_' ∧ b = '_')) :=
      (List.chain'_cons.1 hchain).2
    refine ⟨fun x hx => hall x (by simp [hx]),
      (List.chain'_cons'.1 hch2).2, ?_⟩
    intro x hx
    cases l with
    | nil => simp at hx
    | cons a as =>
      rw [List.getLast?_cons_cons, List.getLast?_cons_cons] at hlast
      exact hlast x hx
  · rintro ⟨hall, hchain, hlast⟩
    refine ⟨?_, ?_, ?_⟩
    · intro x hx
      rcases List.mem_cons.1 hx with rfl | hx
      · exact Or.inr rfl
      · rcases List.mem_cons.1 hx with rfl | hx
        · exact Or.inl hd
        · exact hall x hx
    · refine List.chain'_cons.2 ⟨fun h => digit_ne_underscore hd h.2, ?_⟩
      exact List.chain'_cons'.2
        ⟨fun b hb h => digit_ne_underscore hd h.1, hchain⟩
    · intro x hx
      cases l with
      | nil =>
        rw [List.getLast?_cons_cons] at hx
        simp only [List.getLast?_singleton, Option.mem_def,
          Option.some.injEq] at hx
        subst hx
        exact hd
      | cons a as =>
        rw [List.getLast?_cons_cons, List.getLast?_cons_cons] at hx
        exact hlast x hx

theorem digitsVal_isSome_iff :
    ∀ (n : Nat) (r : List Char), r.length ≤ n → ∀ acc : Nat,
      ((digitsVal acc r).isSome = true ↔ TailOK r) := by
  intro n
  induction n with
  | zero =>
    intro r hr acc
    have hr0 : r = [] := List.length_eq_zero.1 (Nat.le_zero.1 hr)
    subst hr0
    simp [digitsVal, TailOK]
  | succ n ih =>
    intro r hr acc
    rcases r with _ | ⟨c, _ | ⟨d, rest⟩⟩
    · simp [digitsVal, TailOK]
    · by_cases hc : c.isDigit = true
      · simp [digitsVal, hc, TailOK]
      · have hcb : c.isDigit = false := by
          cases hx : c.isDigit
          · rfl
          · exact absurd hx hc
        simp [digitsVal, hcb, TailOK]
    · by_cases hc : c.isDigit = true
      · have e1 : digitsVal acc (c :: d :: rest)
            = digitsVal (10 * acc + (c.toNat - 48)) (d :: rest) := by
          simp [digitsVal, hc]
        rw [e1, ih (d :: rest) (by simp at hr ⊢; omega) _]
        exact (tailOK_cons_digit hc (d :: rest)).symm
      · have hcb : c.isDigit = false := by
          cases hx : c.isDigit
          · rfl
          · exact absurd hx hc
        by_cases hcu : c = '_'
        · subst hcu
          by_cases hd : d.isDigit = true
          · have e1 : digitsVal acc ('_' :: d :: rest)
                = digitsVal (10 * acc + (d.toNat - 48)) rest := by
              simp [digitsVal, hd]
            rw [e1, ih rest (by simp at hr ⊢; omega) _]
            exact (tailOK_underscore_cons hd rest).symm
          · have hdb : d.isDigit = false := by
              cases hx : d.isDigit
              · rfl
              · exact absurd hx hd
            have e1 : digitsVal acc ('_' :: d :: rest) = none := by
              simp [digitsVal, hdb]
            rw [e1]
            simp only [Option.isSome_none, Bool.false_eq_true, false_iff]
            rintro ⟨hall, hchain, -⟩
            rcases hall d (by simp) with hx | hx
            · exact absurd hx (by simp [hdb])
            · subst hx
              exact (List.chain'_cons.1 hchain).1 ⟨rfl, rfl⟩
        · have e1 : digitsVal acc (c :: d :: rest) = none := by
            simp [digitsVal, hcb, hcu]
          rw [e1]
          simp only [Option.isSome_none, Bool.false_eq_true, false_iff]
          rintro ⟨hall, -, -⟩
          rcases hall c (by simp) with hx | hx
          · exact absurd hx (by simp [hcb])
          · exact hcu hx

theorem goodDigits_cons {c : Char} (hc : c.isDigit = true) (r : List Char) :
    GoodDigits (c :: r) ↔ TailOK r := by
  unfold GoodDigits
  constructor
  · rintro ⟨-, hall, -, hlast, hchain⟩
    refine ⟨fun x hx => hall x (by simp [hx]),
      (List.chain'_cons'.1 hchain).2, ?_⟩
    intro x hx
    cases r with
    | nil => simp at hx
    | cons a as =>
      rw [List.getLast?_cons_cons] at hlast
      exact hlast x hx
  · rintro ⟨hall, hchain, hlast⟩
    refine ⟨by simp, ?_, ?_, ?_, ?_⟩
    · intro x hx
      rcases List.mem_cons.1 hx with rfl | hx
      · exact Or.inl hc
      · exact hall x hx
    · intro h hh
      simp only [List.head?_cons, Option.mem_def, Option.some.injEq] at hh
      subst hh
      exact hc
    · intro x hx
      cases r with
      | nil =>
        simp only [List.getLast?_singleton, Option.mem_def,
          Option.some.injEq] at hx
        subst hx
        exact hc
      | cons a as =>
        rw [List.getLast?_cons_cons] at hx
        exact hlast x hx
    · exact List.chain'_cons'.2
        ⟨fun b hb h => digit_ne_underscore hc h.1, hchain⟩

theorem parseDigitsUS_isSome_iff (ds : List Char) :
    (parseDigitsUS ds).isSome = true ↔ GoodDigits ds := by
  cases ds with
  | nil => simp [parseDigitsUS, GoodDigits]
  | cons c r =>
    by_cases hc : c.isDigit = true
    · have e1 : parseDigitsUS (c :: r) = digitsVal (c.toNat - 48) r := by
        simp [parseDigitsUS, hc]
      rw [e1, digitsVal_isSome_iff r.length r (Nat.le_refl _) _]
      exact (goodDigits_cons hc r).symm
    · have hcb : c.isDigit = false := by
        cases hx : c.isDigit
        · rfl
        · exact absurd hx hc
      have e1 : parseDigitsUS (c :: r) = none := by
        simp [parseDigitsUS, hcb]
      rw [e1]
      simp only [Option.isSome_none, Bool.false_eq_true, false_iff]
      rintro ⟨-, -, hhead, -, -⟩
      have := hhead c (by simp)
      exact absurd this (by simp [hcb])

theorem isPySpace_false_of_isDigit {c : Char} (h : c.isDigit = true) :
    isPySpace c = false := by
  cases hx : isPySpace c
  · rfl
  · exfalso
    simp only [isPySpace, Bool.or_eq_true, beq_iff_eq] at hx
    rcases hx with ((((rfl | rfl) | rfl) | rfl) | rfl) | rfl <;>
      exact absurd h (by decide)

theorem digit_ne_minus {c : Char} (h : c.isDigit = true) : c ≠ '-' := by
  intro hx
  subst hx
  exact absurd h (by decide)

theorem digit_ne_plus {c : Char} (h : c.isDigit = true) : c ≠ '+' := by
  intro hx
  subst hx
  exact absurd h (by decide)

theorem dropWhile_eq_self_of_head?A {p : Char → Bool} {l : List Char}
    (h : ∀ x ∈ l.head?, p x = false) : l.dropWhile p = l := by
  cases l with
  | nil => rfl
  | cons a as =>
    have ha : p a = false := h a (by simp)
    simp [List.dropWhile_cons, ha]

/-- `str.strip()` of a value decomposed as leading spaces, a core with
non-space ends, and trailing spaces yields exactly the core. -/
theorem stripPy_of_decomp {a m b : List Char}
    (ha : ∀ c ∈ a, isPySpace c = true) (hb : ∀ c ∈ b, isPySpace c = true)
    (hh : ∀ x ∈ m.head?, isPySpace x = false)
    (hl : ∀ x ∈ m.getLast?, isPySpace x = false) :
    stripPy (a ++ m ++ b) = m := by
  unfold stripPy
  rw [List.append_assoc, List.dropWhile_append_of_pos ha]
  cases m with
  | nil =>
    simp only [List.nil_append]
    rw [List.dropWhile_eq_nil_iff.2 hb]
    rfl
  | cons m0 m' =>
    have h0 : isPySpace m0 = false := hh m0 (by simp)
    rw [show ((m0 :: m') ++ b).dropWhile isPySpace = (m0 :: m') ++ b by
      simp [List.dropWhile_cons, h0]]
    unfold rstripPy
    rw [List.reverse_append,
      List.dropWhile_append_of_pos (fun c hc => hb c (List.mem_reverse.1 hc)),
      dropWhile_eq_self_of_head?A (by
        intro x hx
        rw [List.head?_reverse] at hx
        exact hl x hx),
      List.reverse_reverse]

/-- `str.strip()` splits its argument into leading spaces, the stripped
core, and trailing spaces. -/
theorem stripPy_split (cs : List Char) :
    ∃ a b, cs = a ++ stripPy cs ++ b
      ∧ (∀ c ∈ a, isPySpace c = true) ∧ (∀ c ∈ b, isPySpace c = true) := by
  refine ⟨cs.takeWhile isPySpace,
    ((cs.dropWhile isPySpace).reverse.takeWhile isPySpace).reverse, ?_, ?_, ?_⟩
  · conv_lhs => rw [← List.takeWhile_append_dropWhile isPySpace cs]
    rw [List.append_assoc]
    congr 1
    unfold stripPy rstripPy
    conv_lhs => rw [← List.reverse_reverse (cs.dropWhile isPySpace),
      ← List.takeWhile_append_dropWhile isPySpace
        (cs.dropWhile isPySpace).reverse]
    rw [List.reverse_append]
  · exact fun c hc => List.mem_takeWhile_imp hc
  · intro c hc
    rw [List.mem_reverse] at hc
    exact List.mem_takeWhile_imp hc

/-- Python `int` acceptance coincides with the declarative grammar. -/
theorem pyInt_isSome_iff (cs : List Char) :
    (pyInt cs).isSome = true ↔ PyIntGrammar cs := by
  constructor
  · intro h
    obtain ⟨a, b, hdecomp, ha, hb⟩ := stripPy_split cs
    cases hs : stripPy cs with
    | nil =>
      have hpy : pyInt cs = none := by
        unfold pyInt
        rw [hs]
      rw [hpy] at h
      simp at h
    | cons c rest =>
      have hpy : pyInt cs
          = if c = '-' then (parseDigitsUS rest).map (fun n => -(Int.ofNat n))
            else if c = '+' then (parseDigitsUS rest).map Int.ofNat
            else (parseDigitsUS (c :: rest)).map Int.ofNat := by
        unfold pyInt
        rw [hs]
      rw [hpy] at h
      rw [hs] at hdecomp
      by_cases hcm : c = '-'
      · subst hcm
        rw [if_pos rfl] at h
        simp only [Option.isSome_map'] at h
        exact ⟨a, ['-'], rest, b, by simpa [List.append_assoc] using hdecomp,
          ha, hb, Or.inr (Or.inr rfl), (parseDigitsUS_isSome_iff rest).1 h⟩
      · by_cases hcp : c = '+'
        · subst hcp
          rw [if_neg (by decide), if_pos rfl] at h
          simp only [Option.isSome_map'] at h
          exact ⟨a, ['+'], rest, b, by simpa [List.append_assoc] using hdecomp,
            ha, hb, Or.inr (Or.inl rfl), (parseDigitsUS_isSome_iff rest).1 h⟩
        · rw [if_neg hcm, if_neg hcp] at h
          simp only [Option.isSome_map'] at h
          exact ⟨a, [], c :: rest, b, by simpa using hdecomp,
            ha, hb, Or.inl rfl, (parseDigitsUS_isSome_iff (c :: rest)).1 h⟩
  · rintro ⟨a, s, core, b, rfl, ha, hb, hsign, hcore⟩
    have hne : core ≠ [] := hcore.1
    have hhead := hcore.2.2.1
    have hlast := hcore.2.2.2.1
    have hm : stripPy (a ++ (s ++ core) ++ b) = s ++ core := by
      apply stripPy_of_decomp ha hb
      · intro x hx
        rcases hsign with rfl | rfl | rfl
        · rw [List.nil_append] at hx
          exact isPySpace_false_of_isDigit (hhead x hx)
        · simp only [List.cons_append, List.head?_cons, Option.mem_def,
            Option.some.injEq] at hx
          subst hx
          decide
        · simp only [List.cons_append, List.head?_cons, Option.mem_def,
            Option.some.injEq] at hx
          subst hx
          decide
      · intro x hx
        rw [List.getLast?_append_of_ne_nil s hne] at hx
        exact isPySpace_false_of_isDigit (hlast x hx)
    have hshape : a ++ s ++ core ++ b = a ++ (s ++ core) ++ b := by
      simp [List.append_assoc]
    rw [hshape]
    rcases hsign with rfl | rfl | rfl
    · rw [List.nil_append] at hm ⊢
      cases core with
      | nil => exact absurd rfl hne
      | cons c rest =>
        have hcd : c.isDigit = true := hhead c (by simp)
        have hpy : pyInt (a ++ (c :: rest) ++ b)
            = (parseDigitsUS (c :: rest)).map Int.ofNat := by
          unfold pyInt
          rw [hm]
          show (if c = '-' then (parseDigitsUS rest).map (fun n => -(Int.ofNat n))
            else if c = '+' then (parseDigitsUS rest).map Int.ofNat
            else (parseDigitsUS (c :: rest)).map Int.ofNat)
            = (parseDigitsUS (c :: rest)).map Int.ofNat
          rw [if_neg (digit_ne_minus hcd), if_neg (digit_ne_plus hcd)]
        rw [hpy]
        simp only [Option.isSome_map']
        exact (parseDigitsUS_isSome_iff (c :: rest)).2 hcore
    · simp only [List.singleton_append] at hm ⊢
      have hpy : pyInt (a ++ ('+' :: core) ++ b)
          = (parseDigitsUS core).map Int.ofNat := by
        unfold pyInt
        rw [hm]
        rfl
      rw [hpy]
      simp only [Option.isSome_map']
      exact (parseDigitsUS_isSome_iff core).2 hcore
    · simp only [List.singleton_append] at hm ⊢
      have hpy : pyInt (a ++ ('-' :: core) ++ b)
          = (parseDigitsUS core).map (fun n => -(Int.ofNat n)) := by
        unfold pyInt
        rw [hm]
        rfl
      rw [hpy]
      simp only [Option.isSome_map']
      exact (parseDigitsUS_isSome_iff core).2 hcore

/-- **C4 (counterexample).**  `+5` is outside the claim's grammar (its
optional sign is only `-`), yet coercion produces an Integer, because
Python's `int` also accepts a leading `+`. -/
theorem claim_C4_counterexample :
    coerceCore ("+5".toList) = FieldValue.int 5
    ∧ specNumericC4 ("+5".toList) = false := by decide

/-- **C4 (amended).**  For a normalized value that is not a boolean
literal: the Integer tag is produced exactly when the value has no `.`
and fully matches Python's integer grammar (optional whitespace, one
optional `+`/`-` sign, digits with single interior underscores); the
Float tag exactly when the value contains a `.` and Python's float
grammar accepts it; any other value is kept as a String, and no error is
raised (the embedding is total). -/
theorem claim_C4_coercion :
    ∀ val : List Char,
      val.map Char.toLower ≠ "true".toList →
      val.map Char.toLower ≠ "false".toList →
      ((∃ n, coerceCore val = FieldValue.int n) ↔
        (val.contains '.' = false ∧ PyIntGrammar val))
      ∧ ((∃ tx, coerceCore val = FieldValue.float tx) ↔
        (val.contains '.' = true ∧ pyFloatAccepts val = true))
      ∧ ((¬ (val.contains '.' = false ∧ PyIntGrammar val)
          ∧ ¬ (val.contains '.' = true ∧ pyFloatAccepts val = true)) →
        coerceCore val = FieldValue.str val) := by
  intro val h1 h2
  have hcc : coerceCore val
      = if val.contains '.' then
          (if pyFloatAccepts val then FieldValue.float val
           else FieldValue.str val)
        else
          (match pyInt val with
           | some n => FieldValue.int n
           | none => FieldValue.str val) := by
    unfold coerceCore
    rw [if_neg h1, if_neg h2]
  by_cases hdot : val.contains '.' = true
  · rw [hcc, if_pos hdot]
    refine ⟨?_, ?_, ?_⟩
    · constructor
      · rintro ⟨n, hn⟩
        split_ifs at hn
      · rintro ⟨hfalse, -⟩
        rw [hdot] at hfalse
        exact absurd hfalse (by simp)
    · constructor
      · rintro ⟨tx, htx⟩
        by_cases hfl : pyFloatAccepts val = true
        · exact ⟨hdot, hfl⟩
        · rw [if_neg hfl] at htx
          exact absurd htx (by simp)
      · rintro ⟨-, hfl⟩
        rw [if_pos hfl]
        exact ⟨val, rfl⟩
    · rintro ⟨-, hnf⟩
      have hfl : pyFloatAccepts val = false := by
        cases hx : pyFloatAccepts val
        · rfl
        · exact absurd ⟨hdot, hx⟩ hnf
      rw [if_neg (by simp [hfl])]
  · have hdotf : val.contains '.' = false := by
      cases hx : val.contains '.'
      · rfl
      · exact absurd hx hdot
    rw [hcc, if_neg hdot]
    refine ⟨?_, ?_, ?_⟩
    · constructor
      · rintro ⟨n, hn⟩
        cases hp : pyInt val with
        | none =>
          rw [hp] at hn
          exact absurd hn (by simp)
        | some m =>
          exact ⟨hdotf, (pyInt_isSome_iff val).1 (by simp [hp])⟩
      · rintro ⟨-, hg⟩
        have hsome := (pyInt_isSome_iff val).2 hg
        cases hp : pyInt val with
        | none =>
          rw [hp] at hsome
          exact absurd hsome (by simp)
        | some m =>
          exact ⟨m, rfl⟩
    · constructor
      · rintro ⟨tx, htx⟩
        cases hp : pyInt val with
        | none =>
          rw [hp] at htx
          exact absurd htx (by simp)
        | some m =>
          rw [hp] at htx
          exact absurd htx (by simp)
      · rintro ⟨htrue, -⟩
        rw [hdotf] at htrue
        exact absurd htrue (by simp)
    · rintro ⟨hni, -⟩
      have hg : ¬ PyIntGrammar val := fun hx => hni ⟨hdotf, hx⟩
      cases hp : pyInt val with
      | some m =>
        exact absurd ((pyInt_isSome_iff val).1 (by simp [hp])) hg
      | none =>
        rfl

/-- Witness for C4 (amended) at the non-numeric value `12a`. -/
theorem claim_C4_coercion_witness :
    ((∃ n, coerceCore ("12a".toList) = FieldValue.int n) ↔
      (("12a".toList).contains '.' = false ∧ PyIntGrammar ("12a".toList)))
    ∧ ((∃ tx, coerceCore ("12a".toList) = FieldValue.float tx) ↔
      (("12a".toList).contains '.' = true
        ∧ pyFloatAccepts ("12a".toList) = true))
    ∧ ((¬ (("12a".toList).contains '.' = false
          ∧ PyIntGrammar ("12a".toList))
        ∧ ¬ (("12a".toList).contains '.' = true
          ∧ pyFloatAccepts ("12a".toList) = true)) →
      coerceCore ("12a".toList) = FieldValue.str ("12a".toList)) :=
  claim_C4_coercion _ (by decide) (by decide)

end Calo
